import Mathlib

set_option autoImplicit false

/-! Shallow embedding of `import_memories.py`, the ChatGPT-to-Open-WebUI
memory import tool.  The embedding covers the `Memory` record model, the
per-conversation extractor `process_conversation`, the conversion of fetched
server objects to records, and the content-keyed reconciliation performed in
the `__main__` block.  Python's dynamic values are modelled by `JValue`;
exceptions are modelled by `Except PyErr`.  Numeric JSON values are modelled
as integers: none of the verified properties depends on fractional
timestamps or weights.  Wall-clock time `time.time()` is passed explicitly
as a `now : Int` parameter. -/

/-- JSON-like Python values as produced by `json.load` on the export file or
by `response.json()` on the memories endpoint. -/
inductive JValue where
  | null : JValue
  | jbool : Bool → JValue
  | jnum : Int → JValue
  | jstr : String → JValue
  | jarr : List JValue → JValue
  | jobj : List (String × JValue) → JValue

/-- Python exception classes that the embedded code can raise. -/
inductive PyErr where
  | validationError : PyErr
  | keyError : PyErr
  | valueError : PyErr
  | typeError : PyErr
  | attributeError : PyErr
deriving DecidableEq, Repr

/-- Python truthiness of a JSON value (`if not x` tests). -/
def truthy : JValue → Bool
  | .null => false
  | .jbool b => b
  | .jnum n => n != 0
  | .jstr s => s != ""
  | .jarr xs => !xs.isEmpty
  | .jobj fs => !fs.isEmpty

/-- Lookup of a key in a JSON object, `none` when absent or not an object. -/
def pyLookup (v : JValue) (k : String) : Option JValue :=
  match v with
  | .jobj fs => (fs.find? (fun p => p.1 == k)).map (fun p => p.2)
  | _ => none

/-- Python `v.get(k, d)`: on a dict returns the stored value (even `None`)
when the key is present and the default otherwise; on any non-dict value
raises `AttributeError`. -/
def pyGetD (v : JValue) (k : String) (d : JValue) : Except PyErr JValue :=
  match v with
  | .jobj fs => .ok (((fs.find? (fun p => p.1 == k)).map (fun p => p.2)).getD d)
  | _ => .error .attributeError

/-- Python `v.items()`: the key-value pairs of a dict in insertion order;
`AttributeError` on a non-dict. -/
def pyItems (v : JValue) : Except PyErr (List (String × JValue)) :=
  match v with
  | .jobj fs => .ok fs
  | _ => .error .attributeError

/-- Python `v[k]` for a string key: `KeyError` when a dict lacks the key,
`TypeError` when `v` is not a dict. -/
def pySubscript (v : JValue) (k : String) : Except PyErr JValue :=
  match v with
  | .jobj fs =>
    match (fs.find? (fun p => p.1 == k)).map (fun p => p.2) with
    | some x => .ok x
    | none => .error .keyError
  | _ => .error .typeError

/-- Accumulate decimal digits into a natural number, failing at the first
non-digit character. -/
def natOfDigitsAux : List Char → Nat → Option Nat
  | [], acc => some acc
  | c :: cs, acc =>
    if c.isDigit then natOfDigitsAux cs (acc * 10 + (c.toNat - 48)) else none

/-- Parse a non-empty string of decimal digits. -/
def natOfDigits? : List Char → Option Nat
  | [] => none
  | ds => natOfDigitsAux ds 0

/-- Integer parsing of a string: an optional leading minus sign followed by
decimal digits, `none` on anything else.  This stands in for the numeric
string parsing done by Python's `int` and by pydantic's lenient coercion. -/
def strToInt? (s : String) : Option Int :=
  match s.data with
  | '-' :: ds => (natOfDigits? ds).map (fun n => -(n : Int))
  | ds => (natOfDigits? ds).map (fun n => (n : Int))

/-- Python `int(v)`: numbers pass through, booleans become 0 or 1, strings
are parsed (`ValueError` on failure), everything else is a `TypeError`. -/
def pyInt : JValue → Except PyErr Int
  | .jnum n => .ok n
  | .jbool b => .ok (if b then 1 else 0)
  | .jstr s =>
    match strToInt? s with
    | some n => .ok n
    | none => .error .valueError
  | _ => .error .typeError

/-- Python `float(v)` under the integral-number model: numbers and booleans
convert, strings are parsed (`ValueError` on failure), everything else is a
`TypeError`. -/
def pyFloat : JValue → Except PyErr Int
  | .jnum n => .ok n
  | .jbool b => .ok (if b then 1 else 0)
  | .jstr s =>
    match strToInt? s with
    | some n => .ok n
    | none => .error .valueError
  | _ => .error .typeError

/-- Collect a list of JSON values that must all be strings, failing with
`TypeError` at the first non-string element (as `str.join` does). -/
def strList : List JValue → Except PyErr (List String)
  | [] => .ok []
  | .jstr s :: rest =>
    match strList rest with
    | .ok ss => .ok (s :: ss)
    | .error e => .error e
  | _ :: _ => .error .typeError

/-- Python `sep.join(v)`: joining a list requires every element to be a
string; joining a string iterates its characters; joining a dict iterates
its keys; other values raise `TypeError`. -/
def pyJoin (sep : String) : JValue → Except PyErr String
  | .jarr xs =>
    match strList xs with
    | .ok ss => .ok (String.intercalate sep ss)
    | .error e => .error e
  | .jstr s => .ok (String.intercalate sep (s.data.map (fun c => String.singleton c)))
  | .jobj fs => .ok (String.intercalate sep (fs.map (fun p => p.1)))
  | _ => .error .typeError

/-- Pydantic validation of a required `str` field. -/
def pydStr : JValue → Except PyErr String
  | .jstr s => .ok s
  | _ => .error .validationError

/-- Pydantic validation of an optional `str` field. -/
def pydStrOpt : JValue → Except PyErr (Option String)
  | .null => .ok none
  | .jstr s => .ok (some s)
  | _ => .error .validationError

/-- Pydantic validation of a required `int` field: accepts numbers and
numeric strings, rejects everything else. -/
def pydInt : JValue → Except PyErr Int
  | .jnum n => .ok n
  | .jstr s =>
    match strToInt? s with
    | some n => .ok n
    | none => .error .validationError
  | _ => .error .validationError

/-- Pydantic validation of an optional `float` field under the
integral-number model. -/
def pydFloatOpt : JValue → Except PyErr (Option Int)
  | .null => .ok none
  | .jnum n => .ok (some n)
  | .jstr s =>
    match strToInt? s with
    | some n => .ok (some n)
    | none => .error .validationError
  | _ => .error .validationError

/-- The `Memory` pydantic model of `import_memories.py`. -/
structure Memory where
  content : String
  created_at : Int
  updated_at : Int
  weight : Option Int := none
  model : Option String := none
  server_id : Option String := none
deriving DecidableEq, Repr

/-- The `Memory.__eq__` method: records compare equal exactly when their
`content` strings are equal (after an `isinstance` check that is always
satisfied here since both arguments are records). -/
def memEq (m1 m2 : Memory) : Bool := m1.content == m2.content

/-- The `Memory.__hash__` method: the hash of the `content` string alone. -/
def memHash (m : Memory) : UInt64 := hash m.content

/-- The test `recipient == "bio"` on a raw JSON value. -/
def isBio : JValue → Bool
  | .jstr s => s == "bio"
  | _ => false

/-- The `Memory(...)` constructor call inside the `try` block of
`process_conversation`: its arguments `int(create_time)`, `int(update_time)`,
`float(weight)` and the final pydantic validation are all evaluated inside
the `try`, so any of their exceptions surfaces here.  `created_at` and
`updated_at` default to `now` when the raw value is falsy; `weight` is
converted unless it is `None`; `model` is passed through when truthy
(pydantic then requires it to be a string) and `None` otherwise;
`server_id` is always `None`. -/
def buildMemory (now : Int) (memory_content : String)
    (create_time update_time weight model : JValue) : Except PyErr Memory :=
  match (if truthy create_time then pyInt create_time else .ok now) with
  | .error e => .error e
  | .ok created_at =>
    match (if truthy update_time then pyInt update_time else .ok now) with
    | .error e => .error e
    | .ok updated_at =>
      match (match weight with
             | .null => Except.ok (none : Option Int)
             | w =>
               match pyFloat w with
               | .ok x => .ok (some x)
               | .error e => .error e) with
      | .error e => .error e
      | .ok w =>
        match pydStrOpt (if truthy model then model else .null) with
        | .error e => .error e
        | .ok mo =>
          .ok { content := memory_content, created_at := created_at,
                updated_at := updated_at, weight := w, model := mo,
                server_id := none }

/-- The part of the per-message body of `process_conversation` that runs
before the `try` block: skip falsy nodes and falsy messages, keep only
messages whose `recipient` is `"bio"`, join `content.parts` with newlines,
and read the raw `create_time`, `update_time`, `weight` and
`metadata.model_slug` values.  Returns `none` when the message is skipped. -/
def bioArgs (msg_data : JValue) :
    Except PyErr (Option (String × JValue × JValue × JValue × JValue)) :=
  if truthy msg_data = false then .ok none else
  match pyGetD msg_data "message" .null with
  | .error e => .error e
  | .ok message =>
    if truthy message = false then .ok none else
    match pyGetD message "recipient" .null with
    | .error e => .error e
    | .ok recipient =>
      if isBio recipient then
        match pyGetD message "content" (.jobj []) with
        | .error e => .error e
        | .ok contentVal =>
          match pyGetD contentVal "parts" (.jarr []) with
          | .error e => .error e
          | .ok partsVal =>
            match pyJoin "\n" partsVal with
            | .error e => .error e
            | .ok memory_content =>
              match pyGetD message "create_time" .null with
              | .error e => .error e
              | .ok create_time =>
                match pyGetD message "update_time" .null with
                | .error e => .error e
                | .ok update_time =>
                  match pyGetD message "weight" .null with
                  | .error e => .error e
                  | .ok weight =>
                    match pyGetD message "metadata" (.jobj []) with
                    | .error e => .error e
                    | .ok metadata =>
                      match pyGetD metadata "model_slug" .null with
                      | .error e => .error e
                      | .ok model =>
                        .ok (some (memory_content, create_time, update_time,
                                   weight, model))
      else .ok none

/-- One iteration of the message loop of `process_conversation`: the list of
records the message contributes.  A `ValidationError` from the record
constructor is caught and yields no record; any other exception propagates
(the `except` clause catches only `ValidationError`). -/
def msgRecords (now : Int) (msg_data : JValue) : Except PyErr (List Memory) :=
  match bioArgs msg_data with
  | .error e => .error e
  | .ok none => .ok []
  | .ok (some (c, ct, ut, w, mo)) =>
    match buildMemory now c ct ut w mo with
    | .ok m => .ok [m]
    | .error .validationError => .ok []
    | .error e => .error e

/-- The message loop of `process_conversation` over the `mapping.items()`
list, accumulating records in order. -/
def processItems (now : Int) : List (String × JValue) → List Memory →
    Except PyErr (List Memory)
  | [], acc => .ok acc
  | it :: rest, acc =>
    match msgRecords now it.2 with
    | .ok ms => processItems now rest (acc ++ ms)
    | .error e => .error e

/-- The `process_conversation` function: reads `convo.get("mapping", {})`,
iterates its items, and returns the extracted records together with the
number of message nodes. -/
def process_conversation (now : Int) (convo : JValue) :
    Except PyErr (List Memory × Nat) :=
  match pyGetD convo "mapping" (.jobj []) with
  | .error e => .error e
  | .ok mapping =>
    match pyItems mapping with
    | .error e => .error e
    | .ok items =>
      match processItems now items [] with
      | .ok ms => .ok (ms, items.length)
      | .error e => .error e

/-- The `Memory(...)` constructor call inside the loop of
`fetch_open_webui_memories`: `memory_data["content"]` raises `KeyError`
when absent (`TypeError` on a non-dict), the remaining fields are read with
`.get` defaults and validated by pydantic, and `server_id` is taken from the
object's `id` field, defaulting to `None` when absent. -/
def serverMemory (now : Int) (memory_data : JValue) : Except PyErr Memory :=
  match pySubscript memory_data "content" with
  | .error e => .error e
  | .ok contentVal =>
    match pydStr contentVal with
    | .error e => .error e
    | .ok content =>
      match pyGetD memory_data "created_at" (.jnum now) with
      | .error e => .error e
      | .ok caVal =>
        match pydInt caVal with
        | .error e => .error e
        | .ok created_at =>
          match pyGetD memory_data "updated_at" (.jnum now) with
          | .error e => .error e
          | .ok uaVal =>
            match pydInt uaVal with
            | .error e => .error e
            | .ok updated_at =>
              match pyGetD memory_data "weight" .null with
              | .error e => .error e
              | .ok wVal =>
                match pydFloatOpt wVal with
                | .error e => .error e
                | .ok w =>
                  match pyGetD memory_data "model" .null with
                  | .error e => .error e
                  | .ok moVal =>
                    match pydStrOpt moVal with
                    | .error e => .error e
                    | .ok mo =>
                      match pyGetD memory_data "id" .null with
                      | .error e => .error e
                      | .ok idVal =>
                        match pydStrOpt idVal with
                        | .error e => .error e
                        | .ok sid =>
                          .ok { content := content, created_at := created_at,
                                updated_at := updated_at, weight := w,
                                model := mo, server_id := sid }

/-- The conversion loop of `fetch_open_webui_memories`: per-item
`ValidationError` and `KeyError` are caught and the item is skipped; any
other exception propagates. -/
def fetchConvert (now : Int) : List JValue → List Memory →
    Except PyErr (List Memory)
  | [], acc => .ok acc
  | d :: rest, acc =>
    match serverMemory now d with
    | .ok m => fetchConvert now rest (acc ++ [m])
    | .error .validationError => fetchConvert now rest acc
    | .error .keyError => fetchConvert now rest acc
    | .error e => .error e

/-- The record-producing part of `fetch_open_webui_memories`, applied to the
already-parsed JSON body of the memories endpoint (the HTTP transport is an
external collaborator). -/
def fetch_open_webui_memories (now : Int) (memories_data : List JValue) :
    Except PyErr (List Memory) :=
  fetchConvert now memories_data []

/-! Content-keyed dictionaries, modelling Python `dict[str, Memory]` as an
association list in insertion order: inserting an existing key replaces its
value in place, inserting a fresh key appends at the end. -/

/-- Association-list model of `dict[str, Memory]`. -/
abbrev MemDict := List (String × Memory)

/-- Python `k in d` for such a dict. -/
def dictContains (m : MemDict) (k : String) : Bool :=
  m.any (fun p => p.1 == k)

/-- Python `d[k] = v`: replace the value of an existing key in place,
otherwise append the binding at the end. -/
def dictInsert : MemDict → String → Memory → MemDict
  | [], k, v => [(k, v)]
  | p :: rest, k, v =>
    if p.1 == k then (k, v) :: rest else p :: dictInsert rest k v

/-- Python `d.get(k)`: the value at the key, `none` when absent. -/
def dictGet? (m : MemDict) (k : String) : Option Memory :=
  (m.find? (fun p => p.1 == k)).map (fun p => p.2)

/-- The fold `for mem in ms: d[mem.content] = mem` building the
content-keyed maps `server_memories_by_content` and
`local_memories_by_content`. -/
def byContent (ms : List Memory) : MemDict :=
  ms.foldl (fun m mem => dictInsert m mem.content mem) []

/-- The mutable state of the `__main__` reconciliation block. -/
structure ReconState where
  server_memories_by_content : MemDict
  local_memories_by_content : MemDict
  memories_to_upload : List Memory
  memories_to_delete : List Memory
deriving DecidableEq, Repr

/-- One iteration of the first reconciliation loop, over an entry of
`server_memories_by_content`: when a local record with the same content
exists and its `created_at` is strictly smaller, append the server record to
the delete list and the local record to the upload list; otherwise do
nothing. -/
def reconcileStep1 (st : ReconState) (e : String × Memory) : ReconState :=
  match dictGet? st.local_memories_by_content e.1 with
  | some local_mem =>
    if local_mem.created_at < e.2.created_at then
      { st with
        memories_to_delete := st.memories_to_delete ++ [e.2],
        memories_to_upload := st.memories_to_upload ++ [local_mem] }
    else st
  | none => st

/-- One iteration of the second reconciliation loop, over an entry of
`local_memories_by_content`: upload the local record when its content is not
a key of `server_memories_by_content`. -/
def reconcileStep2 (st : ReconState) (e : String × Memory) : ReconState :=
  if dictContains st.server_memories_by_content e.1 then st
  else { st with memories_to_upload := st.memories_to_upload ++ [e.2] }

/-- The whole reconciliation block of `__main__`: build both content-keyed
maps, run the server-entries loop, then the local-entries loop. -/
def reconcileRun (all_memories existing_server_memories : List Memory) :
    ReconState :=
  let st0 : ReconState :=
    { server_memories_by_content := byContent existing_server_memories,
      local_memories_by_content := byContent all_memories,
      memories_to_upload := [], memories_to_delete := [] }
  let st1 := st0.server_memories_by_content.foldl reconcileStep1 st0
  st1.local_memories_by_content.foldl reconcileStep2 st1

/-- The reconciliation result: the pair
`(memories_to_upload, memories_to_delete)`. -/
def reconcile (all_memories existing_server_memories : List Memory) :
    List Memory × List Memory :=
  let st := reconcileRun all_memories existing_server_memories
  (st.memories_to_upload, st.memories_to_delete)

/-! Lemmas about the association-list dictionary model. -/

/-- Helper: left-biased choice on options. -/
def optOr (a b : Option Memory) : Option Memory :=
  match a with
  | some v => some v
  | none => b

theorem optOr_some (v : Memory) (b : Option Memory) :
    optOr (some v) b = some v := rfl

theorem optOr_none (b : Option Memory) : optOr none b = b := rfl

theorem dictGet?_insert (m : MemDict) (k' : String) (v : Memory) (k : String) :
    dictGet? (dictInsert m k' v) k = if k = k' then some v else dictGet? m k := by
  induction m with
  | nil =>
    by_cases h : k = k'
    · subst h; simp [dictInsert, dictGet?, List.find?]
    · simp only [dictInsert, dictGet?, List.find?]
      have hb : (k' == k) = false := by
        simp [Ne.symm h]
      simp [hb, h]
  | cons p rest ih =>
    by_cases hp : p.1 = k'
    · have hb : (p.1 == k') = true := by simp [hp]
      by_cases h : k = k'
      · subst h
        simp [dictInsert, hb, dictGet?, List.find?, hp]
      · have hbk : (k' == k) = false := by simp [Ne.symm h]
        have hpk : (p.1 == k) = false := by simp [hp, Ne.symm h]
        simp [dictInsert, hb, dictGet?, List.find?, hbk, hpk, h]
    · have hb : (p.1 == k') = false := by simp [hp]
      by_cases hk : p.1 = k
      · have hpk : (p.1 == k) = true := by simp [hk]
        have hknek' : ¬k = k' := by
          intro hkk'; exact hp (hk.trans hkk')
        simp [dictInsert, hb, dictGet?, List.find?, hpk, hknek']
      · have hpk : (p.1 == k) = false := by simp [hk]
        have := ih
        simp only [dictInsert, hb, Bool.false_eq_true, if_false, dictGet?,
          List.find?, hpk] at *
        simpa [dictGet?] using ih

theorem mem_dictInsert_fst (m : MemDict) (k : String) (v : Memory)
    (a : String) :
    a ∈ (dictInsert m k v).map Prod.fst ↔ a = k ∨ a ∈ m.map Prod.fst := by
  induction m with
  | nil => simp [dictInsert]
  | cons p rest ih =>
    by_cases hp : p.1 = k
    · subst hp
      have hins : dictInsert (p :: rest) p.1 v = (p.1, v) :: rest := by
        simp [dictInsert]
      rw [hins]
      simp only [List.map_cons, List.mem_cons]
      tauto
    · have hb : (p.1 == k) = false := by simp [hp]
      have hins : dictInsert (p :: rest) k v = p :: dictInsert rest k v := by
        simp [dictInsert, hb]
      rw [hins]
      simp only [List.map_cons, List.mem_cons, ih]
      tauto

theorem dictInsert_fst_nodup (m : MemDict) (k : String) (v : Memory)
    (h : (m.map Prod.fst).Nodup) :
    ((dictInsert m k v).map Prod.fst).Nodup := by
  induction m with
  | nil => simp [dictInsert]
  | cons p rest ih =>
    simp only [List.map_cons, List.nodup_cons] at h
    by_cases hp : p.1 = k
    · have hb : (p.1 == k) = true := by simp [hp]
      simp only [dictInsert, hb, if_true, List.map_cons, List.nodup_cons]
      exact ⟨hp ▸ h.1, h.2⟩
    · have hb : (p.1 == k) = false := by simp [hp]
      simp only [dictInsert, hb, Bool.false_eq_true, if_false, List.map_cons,
        List.nodup_cons]
      refine ⟨?_, ih h.2⟩
      intro hmem
      rcases (mem_dictInsert_fst rest k v p.1).1 hmem with h1 | h1
      · exact hp h1
      · exact h.1 h1

theorem dictInsert_val (m : MemDict) (k : String) (v : Memory)
    (h : ∀ p ∈ m, Memory.content p.2 = p.1) (hv : v.content = k) :
    ∀ p ∈ dictInsert m k v, Memory.content p.2 = p.1 := by
  induction m with
  | nil =>
    intro p hp
    simp [dictInsert] at hp
    subst hp; exact hv
  | cons q rest ih =>
    by_cases hq : q.1 = k
    · have hb : (q.1 == k) = true := by simp [hq]
      intro p hp
      simp only [dictInsert, hb, if_true] at hp
      rcases List.mem_cons.1 hp with h1 | h1
      · subst h1; exact hv
      · exact h p (List.mem_cons_of_mem q h1)
    · have hb : (q.1 == k) = false := by simp [hq]
      intro p hp
      simp only [dictInsert, hb, Bool.false_eq_true, if_false] at hp
      rcases List.mem_cons.1 hp with h1 | h1
      · rw [h1]; exact h q (List.mem_cons_self q rest)
      · exact ih (fun p hp => h p (List.mem_cons_of_mem q hp)) p h1

theorem byContentAux_val (ms : List Memory) :
    ∀ acc : MemDict, (∀ p ∈ acc, Memory.content p.2 = p.1) →
      ∀ p ∈ ms.foldl (fun m mem => dictInsert m mem.content mem) acc,
        Memory.content p.2 = p.1 := by
  induction ms with
  | nil => intro acc hacc; simpa using hacc
  | cons mem rest ih =>
    intro acc hacc
    simp only [List.foldl_cons]
    exact ih (dictInsert acc mem.content mem)
      (dictInsert_val acc mem.content mem hacc rfl)

theorem byContent_val (ms : List Memory) :
    ∀ p ∈ byContent ms, Memory.content p.2 = p.1 :=
  byContentAux_val ms [] (by simp)

theorem byContentAux_nodup (ms : List Memory) :
    ∀ acc : MemDict, ((acc.map Prod.fst)).Nodup →
      ((ms.foldl (fun m mem => dictInsert m mem.content mem) acc).map
        Prod.fst).Nodup := by
  induction ms with
  | nil => intro acc hacc; simpa using hacc
  | cons mem rest ih =>
    intro acc hacc
    simp only [List.foldl_cons]
    exact ih (dictInsert acc mem.content mem)
      (dictInsert_fst_nodup acc mem.content mem hacc)

theorem byContent_nodup (ms : List Memory) :
    ((byContent ms).map Prod.fst).Nodup :=
  byContentAux_nodup ms [] (by simp)

theorem byContentAux_keys (ms : List Memory) (k : String) :
    ∀ acc : MemDict,
      (k ∈ (ms.foldl (fun m mem => dictInsert m mem.content mem) acc).map
          Prod.fst ↔
        k ∈ acc.map Prod.fst ∨ k ∈ ms.map Memory.content) := by
  induction ms with
  | nil => intro acc; simp
  | cons mem rest ih =>
    intro acc
    simp only [List.foldl_cons, List.map_cons, List.mem_cons]
    rw [ih (dictInsert acc mem.content mem)]
    rw [mem_dictInsert_fst]
    tauto

theorem byContent_keys (ms : List Memory) (k : String) :
    k ∈ (byContent ms).map Prod.fst ↔ k ∈ ms.map Memory.content := by
  have := byContentAux_keys ms k []
  simpa [byContent] using this

theorem byContentAux_get (ms : List Memory) (k : String) :
    ∀ acc : MemDict,
      dictGet? (ms.foldl (fun m mem => dictInsert m mem.content mem) acc) k =
        optOr (ms.reverse.find? (fun mem => mem.content == k))
          (dictGet? acc k) := by
  induction ms with
  | nil => intro acc; simp [optOr]
  | cons mem rest ih =>
    intro acc
    simp only [List.foldl_cons, List.reverse_cons]
    rw [ih (dictInsert acc mem.content mem)]
    rw [List.find?_append]
    by_cases h : mem.content = k
    · have hb : (mem.content == k) = true := by simp [h]
      cases hfind : rest.reverse.find? (fun m => m.content == k) with
      | none =>
        simp [hfind, optOr, List.find?, hb, dictGet?_insert, h.symm,
          Option.none_orElse]
      | some v =>
        simp [hfind, optOr, Option.some_orElse]
    · have hb : (mem.content == k) = false := by simp [h]
      cases hfind : rest.reverse.find? (fun m => m.content == k) with
      | none =>
        have hk : ¬k = mem.content := fun hh => h hh.symm
        simp [hfind, optOr, List.find?, hb, dictGet?_insert, hk,
          Option.none_orElse]
      | some v =>
        simp [hfind, optOr, Option.some_orElse]

theorem byContent_get (ms : List Memory) (k : String) :
    dictGet? (byContent ms) k =
      ms.reverse.find? (fun mem => mem.content == k) := by
  have := byContentAux_get ms k []
  simp only [byContent] at *
  rw [this]
  cases h : ms.reverse.find? (fun mem => mem.content == k) <;>
    simp [optOr, dictGet?]

theorem dictGet?_mem (m : MemDict) (k : String) (v : Memory)
    (h : dictGet? m k = some v) : (k, v) ∈ m := by
  simp only [dictGet?, Option.map_eq_some'] at h
  obtain ⟨p, hp, hpv⟩ := h
  have hmem := List.mem_of_find?_eq_some hp
  have hpred := List.find?_some hp
  have hk : p.1 = k := by simpa using hpred
  have : p = (k, v) := by
    cases p with
    | mk a b =>
      simp only at hk hpv
      rw [hk, hpv]
  rw [this] at hmem
  exact hmem

theorem dictGet?_of_mem (m : MemDict) (k : String) (v : Memory)
    (hnd : (m.map Prod.fst).Nodup) (h : (k, v) ∈ m) :
    dictGet? m k = some v := by
  induction m with
  | nil => simp at h
  | cons p rest ih =>
    simp only [List.map_cons, List.nodup_cons] at hnd
    rcases List.mem_cons.1 h with h1 | h1
    · subst h1
      simp [dictGet?, List.find?]
    · have hk : p.1 ≠ k := by
        intro hpk
        apply hnd.1
        rw [hpk]
        exact List.mem_map_of_mem Prod.fst h1
      have hb : (p.1 == k) = false := by simp [hk]
      simp only [dictGet?, List.find?, hb]
      exact ih hnd.2 h1

theorem dictGet?_isSome_eq_contains (m : MemDict) (k : String) :
    (dictGet? m k).isSome = dictContains m k := by
  induction m with
  | nil => simp [dictGet?, dictContains]
  | cons p rest ih =>
    by_cases h : p.1 = k
    · have hb : (p.1 == k) = true := by simp [h]
      simp [dictGet?, dictContains, List.find?, hb]
    · have hb : (p.1 == k) = false := by simp [h]
      simp only [dictGet?, dictContains, List.find?, hb, List.any_cons,
        Bool.false_or]
      exact ih

theorem byContent_get_val (ms : List Memory) (k : String) (v : Memory)
    (h : dictGet? (byContent ms) k = some v) : v.content = k :=
  byContent_val ms (k, v) (dictGet?_mem (byContent ms) k v h)

/-! Characterisation of the reconciliation loops. -/

/-- The stale-pair test of the first reconciliation loop as a function of a
server-map entry: the matched local record paired with the server record,
present exactly when the local record is strictly older. -/
def staleEntry (lb : MemDict) (e : String × Memory) :
    Option (Memory × Memory) :=
  match dictGet? lb e.1 with
  | some local_mem =>
    if local_mem.created_at < e.2.created_at then some (local_mem, e.2)
    else none
  | none => none

theorem staleEntry_eq_some (lb : MemDict) (e : String × Memory)
    (a b : Memory) :
    staleEntry lb e = some (a, b) ↔
      dictGet? lb e.1 = some a ∧ a.created_at < e.2.created_at ∧ b = e.2 := by
  unfold staleEntry
  cases hg : dictGet? lb e.1 with
  | none => simp
  | some lm =>
    by_cases hlt : lm.created_at < e.2.created_at
    · simp only [hlt, if_true, Option.some.injEq, Prod.mk.injEq]
      constructor
      · rintro ⟨h1, h2⟩
        exact ⟨h1, h1 ▸ hlt, h2.symm⟩
      · rintro ⟨h1, _, h3⟩
        exact ⟨h1, h3.symm⟩
    · simp only [hlt, if_false, Option.some.injEq]
      constructor
      · intro h; exact absurd h (by simp)
      · rintro ⟨h1, h2, _⟩
        rw [h1] at hlt
        exact absurd h2 hlt

theorem reconcileStep1_eq (st : ReconState) (e : String × Memory) :
    reconcileStep1 st e =
      { st with
        memories_to_upload := st.memories_to_upload ++
          ((staleEntry st.local_memories_by_content e).map Prod.fst).toList,
        memories_to_delete := st.memories_to_delete ++
          ((staleEntry st.local_memories_by_content e).map Prod.snd).toList } := by
  unfold reconcileStep1 staleEntry
  cases hg : dictGet? st.local_memories_by_content e.1 with
  | none => simp
  | some lm =>
    by_cases hlt : lm.created_at < e.2.created_at
    · simp [hlt]
    · simp [hlt]

theorem foldl_reconcileStep1 (sb lb : MemDict) (u d : List Memory)
    (es : List (String × Memory)) :
    es.foldl reconcileStep1 ⟨sb, lb, u, d⟩ =
      ⟨sb, lb,
       u ++ es.filterMap (fun e => (staleEntry lb e).map Prod.fst),
       d ++ es.filterMap (fun e => (staleEntry lb e).map Prod.snd)⟩ := by
  induction es generalizing u d with
  | nil => simp
  | cons e rest ih =>
    rw [List.foldl_cons, reconcileStep1_eq]
    cases hse : staleEntry lb e with
    | none =>
      simp only [hse, Option.map_none', Option.toList_none, List.append_nil]
      rw [ih]
      simp [List.filterMap_cons, hse]
    | some pr =>
      simp only [hse, Option.map_some', Option.toList_some]
      rw [ih]
      simp [List.filterMap_cons, hse, List.append_assoc]

theorem reconcileStep2_eq (st : ReconState) (e : String × Memory) :
    reconcileStep2 st e =
      { st with
        memories_to_upload := st.memories_to_upload ++
          (if dictContains st.server_memories_by_content e.1 then []
           else [e.2]) } := by
  unfold reconcileStep2
  by_cases h : dictContains st.server_memories_by_content e.1
  · simp [h]
  · simp [h]

theorem foldl_reconcileStep2 (sb lb : MemDict) (u d : List Memory)
    (es : List (String × Memory)) :
    es.foldl reconcileStep2 ⟨sb, lb, u, d⟩ =
      ⟨sb, lb,
       u ++ (es.filter (fun e => !dictContains sb e.1)).map Prod.snd, d⟩ := by
  induction es generalizing u with
  | nil => simp
  | cons e rest ih =>
    rw [List.foldl_cons, reconcileStep2_eq]
    by_cases h : dictContains sb e.1
    · simp only [h, if_true, List.append_nil]
      rw [ih]
      simp [List.filter_cons, h]
    · simp only [h, if_false]
      rw [ih]
      simp [List.filter_cons, h, List.append_assoc]

theorem reconcileRun_eq (l r : List Memory) :
    reconcileRun l r =
      ⟨byContent r, byContent l,
       (byContent r).filterMap
           (fun e => (staleEntry (byContent l) e).map Prod.fst) ++
         ((byContent l).filter
             (fun e => !dictContains (byContent r) e.1)).map Prod.snd,
       (byContent r).filterMap
           (fun e => (staleEntry (byContent l) e).map Prod.snd)⟩ := by
  simp only [reconcileRun]
  rw [foldl_reconcileStep1]
  rw [foldl_reconcileStep2]
  simp

theorem reconcile_eq (l r : List Memory) :
    reconcile l r =
      ((byContent r).filterMap
           (fun e => (staleEntry (byContent l) e).map Prod.fst) ++
         ((byContent l).filter
             (fun e => !dictContains (byContent r) e.1)).map Prod.snd,
       (byContent r).filterMap
           (fun e => (staleEntry (byContent l) e).map Prod.snd)) := by
  unfold reconcile
  rw [reconcileRun_eq]

theorem mem_reconcile_deletions (l r : List Memory) (d : Memory) :
    d ∈ (reconcile l r).2 ↔
      ∃ e ∈ byContent r, ∃ a, staleEntry (byContent l) e = some (a, d) := by
  rw [reconcile_eq]
  simp only [List.mem_filterMap]
  constructor
  · rintro ⟨e, he, hmap⟩
    rcases Option.map_eq_some'.1 hmap with ⟨pr, hpr, hsnd⟩
    exact ⟨e, he, pr.1, by cases pr; simp only at hsnd; rw [hsnd] at hpr; exact hpr⟩
  · rintro ⟨e, he, a, hse⟩
    exact ⟨e, he, by rw [hse]; rfl⟩

theorem mem_reconcile_uploads (l r : List Memory) (u : Memory) :
    u ∈ (reconcile l r).1 ↔
      (∃ e ∈ byContent r, ∃ b, staleEntry (byContent l) e = some (u, b)) ∨
      (∃ e ∈ byContent l, dictContains (byContent r) e.1 = false ∧
        e.2 = u) := by
  rw [reconcile_eq]
  simp only [List.mem_append, List.mem_filterMap, List.mem_map,
    List.mem_filter, Bool.not_eq_true']
  constructor
  · rintro (⟨e, he, hmap⟩ | ⟨e, ⟨he, hc⟩, hsnd⟩)
    · rcases Option.map_eq_some'.1 hmap with ⟨pr, hpr, hfst⟩
      exact Or.inl ⟨e, he, pr.2,
        by cases pr; simp only at hfst; rw [hfst] at hpr; exact hpr⟩
    · exact Or.inr ⟨e, he, hc, hsnd⟩
  · rintro (⟨e, he, b, hse⟩ | ⟨e, he, hc, hsnd⟩)
    · exact Or.inl ⟨e, he, by rw [hse]; rfl⟩
    · exact Or.inr ⟨e, ⟨he, hc⟩, hsnd⟩

/-! Bridging lemmas between map membership and the action lists. -/

theorem dictContains_of_get? (m : MemDict) (k : String) (v : Memory)
    (h : dictGet? m k = some v) : dictContains m k = true := by
  rw [← dictGet?_isSome_eq_contains, h]
  rfl

theorem not_contains_of_get?_none (m : MemDict) (k : String)
    (h : dictGet? m k = none) : dictContains m k = false := by
  rw [← dictGet?_isSome_eq_contains, h]
  rfl

theorem dictGet?_eq_none_of_not_contains (m : MemDict) (k : String)
    (h : dictContains m k = false) : dictGet? m k = none := by
  cases hcase : dictGet? m k with
  | none => rfl
  | some v =>
    have hh := dictGet?_isSome_eq_contains m k
    rw [hcase, h] at hh
    simp at hh

theorem mem_deletions_elim (l r : List Memory) (d : Memory)
    (hd : d ∈ (reconcile l r).2) :
    dictGet? (byContent r) d.content = some d ∧
      ∃ loc, dictGet? (byContent l) d.content = some loc ∧
        loc.created_at < d.created_at := by
  rcases (mem_reconcile_deletions l r d).1 hd with ⟨e, he, a, hse⟩
  rw [staleEntry_eq_some] at hse
  obtain ⟨hga, hlt, hde⟩ := hse
  have hval := byContent_val r e he
  have he1 : e.1 = d.content := by rw [hde]; exact hval.symm
  constructor
  · have hpair : (d.content, d) = e := by
      cases e with
      | mk x y =>
        simp only at he1 hde
        rw [← he1, hde]
    exact dictGet?_of_mem (byContent r) d.content d (byContent_nodup r)
      (hpair ▸ he)
  · refine ⟨a, ?_, ?_⟩
    · rw [← he1]; exact hga
    · rw [hde]; exact hlt

theorem mem_uploads_elim (l r : List Memory) (u : Memory)
    (hu : u ∈ (reconcile l r).1) :
    dictGet? (byContent l) u.content = some u ∧
      (dictGet? (byContent r) u.content = none ∨
        ∃ s, dictGet? (byContent r) u.content = some s ∧
          u.created_at < s.created_at) := by
  rcases (mem_reconcile_uploads l r u).1 hu with ⟨e, he, b, hse⟩ | ⟨e, he, hc, hsnd⟩
  · rw [staleEntry_eq_some] at hse
    obtain ⟨hga, hlt, hbe⟩ := hse
    have he1 : e.1 = u.content :=
      (byContent_get_val l e.1 u hga).symm
    constructor
    · rw [← he1]; exact hga
    · refine Or.inr ⟨e.2, ?_, hbe ▸ hlt⟩
      have hval := byContent_val r e he
      have hpair : (u.content, e.2) = e := by
        cases e with
        | mk x y =>
          simp only at he1 ⊢
          rw [← he1]
      exact dictGet?_of_mem (byContent r) u.content e.2 (byContent_nodup r)
        (hpair ▸ he)
  · have hval := byContent_val l e he
    have he1 : e.1 = u.content := by rw [← hsnd]; exact hval.symm
    constructor
    · have hpair : (u.content, u) = e := by
        cases e with
        | mk x y =>
          simp only at he1 hsnd
          rw [← he1, hsnd]
      exact dictGet?_of_mem (byContent l) u.content u (byContent_nodup l)
        (hpair ▸ he)
    · exact Or.inl (dictGet?_eq_none_of_not_contains _ _ (he1 ▸ hc))

theorem mem_deletions_intro (l r : List Memory) (k : String) (s loc : Memory)
    (hs : dictGet? (byContent r) k = some s)
    (hl : dictGet? (byContent l) k = some loc)
    (hlt : loc.created_at < s.created_at) : s ∈ (reconcile l r).2 := by
  rw [mem_reconcile_deletions]
  refine ⟨(k, s), dictGet?_mem _ _ _ hs, loc, ?_⟩
  rw [staleEntry_eq_some]
  exact ⟨hl, hlt, rfl⟩

theorem mem_uploads_intro_stale (l r : List Memory) (k : String)
    (s loc : Memory)
    (hs : dictGet? (byContent r) k = some s)
    (hl : dictGet? (byContent l) k = some loc)
    (hlt : loc.created_at < s.created_at) : loc ∈ (reconcile l r).1 := by
  rw [mem_reconcile_uploads]
  refine Or.inl ⟨(k, s), dictGet?_mem _ _ _ hs, s, ?_⟩
  rw [staleEntry_eq_some]
  exact ⟨hl, hlt, rfl⟩

theorem mem_uploads_intro_new (l r : List Memory) (k : String) (loc : Memory)
    (hl : dictGet? (byContent l) k = some loc)
    (hn : dictGet? (byContent r) k = none) : loc ∈ (reconcile l r).1 := by
  rw [mem_reconcile_uploads]
  exact Or.inr ⟨(k, loc), dictGet?_mem _ _ _ hl,
    not_contains_of_get?_none _ _ hn, rfl⟩

/-! Concrete records used by the witnesses (scenarios A and B of the spec). -/

/-- Scenario record: the freshly extracted copy of the fact. -/
def teaLocal : Memory :=
  { content := "likes tea", created_at := 50, updated_at := 50 }

/-- Scenario record: the server copy of the same fact with a newer
creation time. -/
def teaServer : Memory :=
  { content := "likes tea", created_at := 100, updated_at := 100,
    server_id := some "s1" }

/-- C1: for every content key present in both content-keyed maps, the
reconciler schedules the server record for deletion and the local record for
upload exactly when the local record's created_at is strictly less than the
server record's created_at, and produces no action for that pair when the
local created_at is greater than or equal to the server created_at. -/
theorem claim1_matched_pair (l r : List Memory) (k : String) (s loc : Memory)
    (hs : dictGet? (byContent r) k = some s)
    (hl : dictGet? (byContent l) k = some loc) :
    (loc.created_at < s.created_at →
      s ∈ (reconcile l r).2 ∧ loc ∈ (reconcile l r).1) ∧
    (s.created_at ≤ loc.created_at →
      s ∉ (reconcile l r).2 ∧ loc ∉ (reconcile l r).1) := by
  have hsk : s.content = k := byContent_get_val r k s hs
  have hlk : loc.content = k := byContent_get_val l k loc hl
  constructor
  · intro hlt
    exact ⟨mem_deletions_intro l r k s loc hs hl hlt,
           mem_uploads_intro_stale l r k s loc hs hl hlt⟩
  · intro hge
    constructor
    · intro hmem
      obtain ⟨h1, loc', h2, h3⟩ := mem_deletions_elim l r s hmem
      rw [hsk, hl] at h2
      injection h2 with h2
      rw [← h2] at h3
      exact absurd h3 (not_lt.2 hge)
    · intro hmem
      obtain ⟨h1, hcase⟩ := mem_uploads_elim l r loc hmem
      rcases hcase with hnone | ⟨s', h2, h3⟩
      · rw [hlk, hs] at hnone
        cases hnone
      · rw [hlk, hs] at h2
        injection h2 with h2
        rw [← h2] at h3
        exact absurd h3 (not_lt.2 hge)

theorem claim1_witness :
    dictGet? (byContent [teaServer]) "likes tea" = some teaServer ∧
    dictGet? (byContent [teaLocal]) "likes tea" = some teaLocal ∧
    teaLocal.created_at < teaServer.created_at ∧
    teaServer ∈ (reconcile [teaLocal] [teaServer]).2 ∧
    teaLocal ∈ (reconcile [teaLocal] [teaServer]).1 := by
  have h := claim1_matched_pair [teaLocal] [teaServer] "likes tea"
    teaServer teaLocal (by decide) (by decide)
  exact ⟨by decide, by decide, by decide,
    (h.1 (by decide)).1, (h.1 (by decide)).2⟩

/-- C2: the reconciliation is a total partition.  A local record is uploaded
exactly when its content is unmatched on the server or the match is stale;
otherwise it is a no-op.  A server record is deleted exactly when it is
matched by a strictly newer-keyed (older created_at) local record; in
particular an unmatched server record is never deleted. -/
theorem claim2_partition (l r : List Memory) (k : String) :
    (∀ loc, dictGet? (byContent l) k = some loc →
      (loc ∈ (reconcile l r).1 ↔
        (dictGet? (byContent r) k = none ∨
         ∃ s, dictGet? (byContent r) k = some s ∧
           loc.created_at < s.created_at))) ∧
    (∀ s, dictGet? (byContent r) k = some s →
      (s ∈ (reconcile l r).2 ↔
        ∃ loc, dictGet? (byContent l) k = some loc ∧
          loc.created_at < s.created_at)) ∧
    (∀ s, dictGet? (byContent r) k = some s →
      dictGet? (byContent l) k = none → s ∉ (reconcile l r).2) := by
  refine ⟨?_, ?_, ?_⟩
  · intro loc hl
    have hlk : loc.content = k := byContent_get_val l k loc hl
    constructor
    · intro hmem
      have h := (mem_uploads_elim l r loc hmem).2
      rw [hlk] at h
      exact h
    · rintro (hnone | ⟨s, hs, hlt⟩)
      · exact mem_uploads_intro_new l r k loc hl hnone
      · exact mem_uploads_intro_stale l r k s loc hs hl hlt
  · intro s hs
    have hsk : s.content = k := byContent_get_val r k s hs
    constructor
    · intro hmem
      obtain ⟨h1, loc, h2, h3⟩ := mem_deletions_elim l r s hmem
      rw [hsk] at h2
      exact ⟨loc, h2, h3⟩
    · rintro ⟨loc, hl, hlt⟩
      exact mem_deletions_intro l r k s loc hs hl hlt
  · intro s hs hlnone hmem
    obtain ⟨h1, loc, h2, h3⟩ := mem_deletions_elim l r s hmem
    rw [byContent_get_val r k s hs, hlnone] at h2
    cases h2

theorem claim2_witness :
    dictGet? (byContent [teaLocal]) "likes tea" = some teaLocal ∧
    dictGet? (byContent ([] : List Memory)) "likes tea" = none ∧
    teaLocal ∈ (reconcile [teaLocal] []).1 :=
  ⟨by decide, by decide,
    ((claim2_partition [teaLocal] [] "likes tea").1 teaLocal
      (by decide)).2 (Or.inl (by decide))⟩

/-- C5: two records compare equal exactly when their content strings are
equal, independently of every other field, and equal records have equal
hashes. -/
theorem claim5_content_identity (r1 r2 : Memory) :
    (memEq r1 r2 = true ↔ r1.content = r2.content) ∧
    (memEq r1 r2 = true → memHash r1 = memHash r2) := by
  constructor
  · simp [memEq]
  · intro h
    simp only [memEq, beq_iff_eq] at h
    simp [memHash, h]

theorem claim5_witness :
    memEq teaLocal teaServer = true ∧ memHash teaLocal = memHash teaServer := by
  have h := claim5_content_identity teaLocal teaServer
  refine ⟨h.1.2 (by decide), h.2 (h.1.2 (by decide))⟩

/-- C6: folding a list of records into a content-keyed map yields exactly
one entry per distinct content value (the key list is duplicate-free and
covers exactly the contents of the list), the retained record for a
duplicated content is the one occurring last in the fold order, and the fold
is a pure function of the input list. -/
theorem claim6_fold (ms : List Memory) :
    ((byContent ms).map Prod.fst).Nodup ∧
    (∀ k, k ∈ (byContent ms).map Prod.fst ↔ k ∈ ms.map Memory.content) ∧
    (∀ k, dictGet? (byContent ms) k =
      ms.reverse.find? (fun mem => mem.content == k)) ∧
    byContent ms = byContent ms :=
  ⟨byContent_nodup ms, fun k => byContent_keys ms k,
   fun k => byContent_get ms k, rfl⟩

/-- C7: the reconciliation computation is deterministic and side-effect
free: the content-keyed maps in the final state are exactly the maps built
from the inputs (the loops never mutate them), and the computed pair of
action lists is a pure function of the inputs. -/
theorem claim7_pure (l r : List Memory) :
    (reconcileRun l r).server_memories_by_content = byContent r ∧
    (reconcileRun l r).local_memories_by_content = byContent l ∧
    reconcile l r = reconcile l r := by
  rw [reconcileRun_eq]
  exact ⟨rfl, rfl, rfl⟩

/-- C9: every deleted server record is paired with a replacement upload of
the same content. -/
theorem claim9_delete_paired (l r : List Memory) :
    ∀ d ∈ (reconcile l r).2, ∃ u ∈ (reconcile l r).1,
      u.content = d.content := by
  intro d hd
  obtain ⟨h1, loc, h2, h3⟩ := mem_deletions_elim l r d hd
  exact ⟨loc, mem_uploads_intro_stale l r d.content d loc h1 h2 h3,
    byContent_get_val l d.content loc h2⟩

theorem claim9_witness :
    teaServer ∈ (reconcile [teaLocal] [teaServer]).2 ∧
    ∃ u ∈ (reconcile [teaLocal] [teaServer]).1,
      u.content = teaServer.content :=
  ⟨by decide, claim9_delete_paired [teaLocal] [teaServer] teaServer
    (by decide)⟩

/-! Duplicate-freedom of the action lists. -/

theorem uploads1_contents_sublist (l : List Memory)
    (es : List (String × Memory)) :
    ((es.filterMap
        (fun e => (staleEntry (byContent l) e).map Prod.fst)).map
      Memory.content).Sublist (es.map Prod.fst) := by
  induction es with
  | nil => simp
  | cons e rest ih =>
    rw [List.filterMap_cons]
    cases hse : staleEntry (byContent l) e with
    | none =>
      simp only [Option.map_none', List.map_cons]
      exact ih.cons e.1
    | some pr =>
      simp only [Option.map_some', List.map_cons]
      have hc : pr.1.content = e.1 := by
        have h := (staleEntry_eq_some (byContent l) e pr.1 pr.2).1
          (by rw [hse])
        exact byContent_get_val l e.1 pr.1 h.1
      rw [hc]
      exact ih.cons₂ e.1

theorem deletions_contents_sublist (l : List Memory)
    (es : List (String × Memory))
    (hval : ∀ e ∈ es, Memory.content e.2 = e.1) :
    ((es.filterMap
        (fun e => (staleEntry (byContent l) e).map Prod.snd)).map
      Memory.content).Sublist (es.map Prod.fst) := by
  induction es with
  | nil => simp
  | cons e rest ih =>
    rw [List.filterMap_cons]
    cases hse : staleEntry (byContent l) e with
    | none =>
      simp only [Option.map_none', List.map_cons]
      exact (ih (fun e he => hval e (List.mem_cons_of_mem _ he))).cons e.1
    | some pr =>
      simp only [Option.map_some', List.map_cons]
      have h := (staleEntry_eq_some (byContent l) e pr.1 pr.2).1
        (by rw [hse])
      have hc : pr.2.content = e.1 := by
        rw [h.2.2]
        exact hval e (List.mem_cons_self e rest)
      rw [hc]
      exact (ih (fun e he => hval e (List.mem_cons_of_mem _ he))).cons₂ e.1

theorem filtered_contents_sublist (es : List (String × Memory))
    (p : String × Memory → Bool)
    (hval : ∀ e ∈ es, Memory.content e.2 = e.1) :
    (((es.filter p).map Prod.snd).map Memory.content).Sublist
      (es.map Prod.fst) := by
  induction es with
  | nil => simp
  | cons e rest ih =>
    rw [List.filter_cons]
    by_cases hp : p e = true
    · simp only [hp, if_true, List.map_cons]
      rw [hval e (List.mem_cons_self e rest)]
      exact (ih (fun e he => hval e (List.mem_cons_of_mem _ he))).cons₂ e.1
    · simp only [hp, if_false, List.map_cons]
      exact (ih (fun e he => hval e (List.mem_cons_of_mem _ he))).cons e.1

theorem dictContains_iff_mem_fst (m : MemDict) (k : String) :
    dictContains m k = true ↔ k ∈ m.map Prod.fst := by
  simp only [dictContains, List.any_eq_true, List.mem_map]
  constructor
  · rintro ⟨p, hp, hpk⟩
    exact ⟨p, hp, by simpa using hpk⟩
  · rintro ⟨p, hp, hpk⟩
    exact ⟨p, hp, by simp [hpk]⟩

/-- C10: the uploads list contains no two records with the same content, and
the deletions list contains no two records with the same content. -/
theorem claim10_no_duplicate_actions (l r : List Memory) :
    ((reconcile l r).1.map Memory.content).Nodup ∧
    ((reconcile l r).2.map Memory.content).Nodup := by
  rw [reconcile_eq]
  constructor
  · simp only [List.map_append]
    apply List.Nodup.append
    · exact (uploads1_contents_sublist l (byContent r)).nodup
        (byContent_nodup r)
    · exact (filtered_contents_sublist (byContent l) _
        (byContent_val l)).nodup (byContent_nodup l)
    · intro c hc1 hc2
      have hmem : c ∈ (byContent r).map Prod.fst :=
        (uploads1_contents_sublist l (byContent r)).subset hc1
      have hcontains : dictContains (byContent r) c = true :=
        (dictContains_iff_mem_fst _ _).2 hmem
      simp only [List.mem_map, List.mem_filter, Bool.not_eq_true'] at hc2
      obtain ⟨u, ⟨e, ⟨he, hp⟩, hu⟩, hcv⟩ := hc2
      have hval := byContent_val l e he
      rw [← hcv, ← hu] at hcontains
      rw [hval] at hcontains
      rw [hcontains] at hp
      cases hp
  · exact (deletions_contents_sublist l (byContent r)
      (byContent_val r)).nodup (byContent_nodup r)

/-! Extraction and fetch-conversion claims. -/

/-- Conversation whose single bio message has an empty parts list. -/
def emptyPartsConvo : JValue :=
  .jobj [("mapping", .jobj [("m1", .jobj [("message", .jobj
    [("recipient", .jstr "bio"),
     ("content", .jobj [("parts", .jarr [])])])])])]

/-- The record that the extractor produces for `emptyPartsConvo`. -/
def emptyContentMemory : Memory :=
  { content := "", created_at := 1000, updated_at := 1000 }

/-- C3 (failing input): a conversation holding one bio message whose
content parts list is empty extracts successfully and yields a record whose
content is the empty string, so empty extraction results are emitted as
valid records rather than treated as failures. -/
theorem claim3_empty_content_record :
    process_conversation 1000 emptyPartsConvo =
      Except.ok ([emptyContentMemory], 1) ∧
    emptyContentMemory.content = "" := by
  constructor
  · rfl
  · rfl

/-- Message node whose bio message is well formed. -/
def goodBioMsg : JValue :=
  .jobj [("message", .jobj
    [("recipient", .jstr "bio"),
     ("content", .jobj [("parts", .jarr [.jstr "good fact"])])])]

/-- The record extracted from `goodBioMsg` at time 1000. -/
def goodFactMemory : Memory :=
  { content := "good fact", created_at := 1000, updated_at := 1000 }

/-- Message node whose bio message carries an uncoercible create_time
string, so `int(create_time)` raises `ValueError` inside the record
constructor call. -/
def badTimeBioMsg : JValue :=
  .jobj [("message", .jobj
    [("recipient", .jstr "bio"),
     ("content", .jobj [("parts", .jarr [.jstr "other fact"])]),
     ("create_time", .jstr "not-a-number")])]

/-- Conversation with one good bio message followed by the bad-time one. -/
def mixedConvo : JValue :=
  .jobj [("mapping", .jobj [("m1", goodBioMsg), ("m2", badTimeBioMsg)])]

/-- The same conversation without the bad-time message. -/
def goodOnlyConvo : JValue :=
  .jobj [("mapping", .jobj [("m1", goodBioMsg)])]

/-- C4 (counterexample): a record construction failure caused by an
uncoercible required field is not contained to that record.  The
conversation without the bad message yields the good record, but adding a
bio message whose create_time is the non-numeric string "not-a-number"
makes the whole conversation fail with `ValueError` (the per-record handler
catches only `ValidationError`), so the sibling good record is lost as
well. -/
theorem claim4_counterexample :
    process_conversation 1000 goodOnlyConvo =
      Except.ok ([goodFactMemory], 1) ∧
    process_conversation 1000 mixedConvo = Except.error PyErr.valueError := by
  constructor
  · rfl
  · rfl

/-- C4 (amended): a per-record construction failure is contained exactly
when it is a pydantic `ValidationError`: a message whose record constructor
fails with `ValidationError` contributes no record and the surrounding
message loop is unchanged, so every other record of the conversation is
kept. -/
theorem claim4_amended :
    (∀ (now : Int) (md : JValue) (k : String)
        (pre post : List (String × JValue)) (acc : List Memory),
      msgRecords now md = Except.ok [] →
      processItems now (pre ++ (k, md) :: post) acc =
        processItems now (pre ++ post) acc) ∧
    (∀ (now : Int) (md : JValue)
        (a : String × JValue × JValue × JValue × JValue),
      bioArgs md = Except.ok (some a) →
      buildMemory now a.1 a.2.1 a.2.2.1 a.2.2.2.1 a.2.2.2.2 =
        Except.error PyErr.validationError →
      msgRecords now md = Except.ok []) := by
  constructor
  · intro now md k pre post acc h
    induction pre generalizing acc with
    | nil =>
      simp only [List.nil_append]
      show (match msgRecords now md with
            | .ok ms => processItems now post (acc ++ ms)
            | .error e => .error e) = processItems now post acc
      rw [h]
      simp
    | cons it rest ih =>
      simp only [List.cons_append]
      show (match msgRecords now it.2 with
            | .ok ms => processItems now (rest ++ (k, md) :: post) (acc ++ ms)
            | .error e => .error e) =
          (match msgRecords now it.2 with
            | .ok ms => processItems now (rest ++ post) (acc ++ ms)
            | .error e => .error e)
      cases hmr : msgRecords now it.2 with
      | ok ms => exact ih (acc ++ ms)
      | error e => rfl
  · intro now md a hbio hbuild
    obtain ⟨c, ct, ut, w, mo⟩ := a
    simp only at hbuild
    simp only [msgRecords, hbio, hbuild]

/-- Bio message whose metadata.model_slug is a list, which pydantic rejects
with a `ValidationError` for the optional model field. -/
def modelListBioMsg : JValue :=
  .jobj [("message", .jobj
    [("recipient", .jstr "bio"),
     ("content", .jobj [("parts", .jarr [.jstr "x fact"])]),
     ("metadata", .jobj [("model_slug", .jarr [.jstr "gpt"])])])]

theorem claim4_witness :
    msgRecords 5 modelListBioMsg = Except.ok [] ∧
    processItems 5 [("m1", goodBioMsg), ("m2", modelListBioMsg)] [] =
      processItems 5 [("m1", goodBioMsg)] [] := by
  have h2 := claim4_amended.2 5 modelListBioMsg
    ("x fact", JValue.null, JValue.null, JValue.null,
      JValue.jarr [JValue.jstr "gpt"])
    (by rfl) (by rfl)
  refine ⟨h2, ?_⟩
  have h1 := claim4_amended.1 5 modelListBioMsg "m2" [("m1", goodBioMsg)]
    [] [] h2
  simpa using h1

/-- Server object with no id field. -/
def noIdServerObj : JValue :=
  .jobj [("content", .jstr "remote fact"), ("created_at", .jnum 5),
         ("updated_at", .jnum 6)]

/-- The record that the fetch conversion produces for `noIdServerObj`. -/
def noIdServerMemory : Memory :=
  { content := "remote fact", created_at := 5, updated_at := 6 }

/-- C8 (counterexample): a fetched remote object that lacks an id field
still converts into a record, and that record's server_id is null even
though it originated from the remote store. -/
theorem claim8_counterexample :
    fetch_open_webui_memories 7 [noIdServerObj] =
      Except.ok [noIdServerMemory] ∧
    noIdServerMemory.server_id = none := by
  constructor
  · rfl
  · rfl

/-- The id string carried by a remote JSON object: the value of its id
field when that value is a string, nothing otherwise. -/
def idField (d : JValue) : Option String :=
  match pyLookup d "id" with
  | some (.jstr s) => some s
  | _ => none

theorem buildMemory_ok_server_id (now : Int) (c : String)
    (ct ut w mo : JValue) (m : Memory)
    (h : buildMemory now c ct ut w mo = Except.ok m) : m.server_id = none := by
  unfold buildMemory at h
  repeat' split at h
  all_goals first
    | exact (Except.noConfusion h)
    | (injection h with h; exact h ▸ rfl)

theorem msgRecords_server_id (now : Int) (md : JValue) (rs : List Memory)
    (h : msgRecords now md = Except.ok rs) :
    ∀ m ∈ rs, m.server_id = none := by
  unfold msgRecords at h
  cases hb : bioArgs md with
  | error e => rw [hb] at h; cases h
  | ok oargs =>
    rw [hb] at h
    cases oargs with
    | none =>
      have h' : Except.ok ([] : List Memory) = Except.ok rs := h
      injection h' with h'
      rw [← h']
      intro m hm
      cases hm
    | some args =>
      obtain ⟨c, ct, ut, w, mo⟩ := args
      have h2 : (match buildMemory now c ct ut w mo with
                 | Except.ok m => Except.ok [m]
                 | Except.error PyErr.validationError =>
                   Except.ok ([] : List Memory)
                 | Except.error e => Except.error e) = Except.ok rs := h
      cases hbm : buildMemory now c ct ut w mo with
      | ok m' =>
        rw [hbm] at h2
        have h' : Except.ok [m'] = Except.ok rs := h2
        injection h' with h'
        intro m hm
        rw [← h'] at hm
        have hmm : m = m' := by simpa using hm
        rw [hmm]
        exact buildMemory_ok_server_id now c ct ut w mo m' hbm
      | error e =>
        rw [hbm] at h2
        cases e with
        | validationError =>
          have h' : Except.ok ([] : List Memory) = Except.ok rs := h2
          injection h' with h'
          rw [← h']
          intro m hm
          cases hm
        | keyError => cases h2
        | valueError => cases h2
        | typeError => cases h2
        | attributeError => cases h2

theorem processItems_server_id (now : Int) (items : List (String × JValue)) :
    ∀ (acc ms : List Memory), (∀ m ∈ acc, m.server_id = none) →
      processItems now items acc = Except.ok ms →
      ∀ m ∈ ms, m.server_id = none := by
  induction items with
  | nil =>
    intro acc ms hacc h
    have h' : Except.ok acc = Except.ok ms := h
    injection h' with h'
    rw [← h']
    exact hacc
  | cons it rest ih =>
    intro acc ms hacc h
    have hstep : processItems now (it :: rest) acc =
        match msgRecords now it.2 with
        | .ok rs => processItems now rest (acc ++ rs)
        | .error e => .error e := rfl
    rw [hstep] at h
    cases hmr : msgRecords now it.2 with
    | ok rs =>
      rw [hmr] at h
      refine ih (acc ++ rs) ms ?_ h
      intro m hm
      rcases List.mem_append.1 hm with h1 | h1
      · exact hacc m h1
      · exact msgRecords_server_id now it.2 rs hmr m h1
    | error e => rw [hmr] at h; cases h

theorem pyGetD_ok_eq (d : JValue) (k : String) (dv x : JValue)
    (h : pyGetD d k dv = Except.ok x) : x = (pyLookup d k).getD dv := by
  cases d with
  | jobj fs =>
    simp only [pyGetD] at h
    have h' : Except.ok
        (((fs.find? (fun p => p.1 == k)).map (fun p => p.2)).getD dv) =
        Except.ok x := h
    injection h' with h'
    simp only [pyLookup]
    exact h'.symm
  | null => simp [pyGetD] at h
  | jbool b => simp [pyGetD] at h
  | jnum n => simp [pyGetD] at h
  | jstr s => simp [pyGetD] at h
  | jarr xs => simp [pyGetD] at h

theorem serverMemory_ok_server_id (now : Int) (d : JValue) (m : Memory)
    (h : serverMemory now d = Except.ok m) : m.server_id = idField d := by
  unfold serverMemory at h
  repeat' split at h
  all_goals try exact (Except.noConfusion h)
  rename_i x1 idVal hid x2 sid hsid
  injection h with h
  rw [← h]
  show sid = idField d
  have hidv : idVal = (pyLookup d "id").getD .null :=
    pyGetD_ok_eq d "id" .null idVal hid
  cases hlook : pyLookup d "id" with
  | none =>
    rw [hlook] at hidv
    rw [hidv] at hsid
    have h2 : Except.ok (none : Option String) = Except.ok sid := hsid
    injection h2 with h2
    simp only [idField, hlook]
    exact h2.symm
  | some v =>
    rw [hlook] at hidv
    rw [hidv] at hsid
    cases v with
    | jstr s =>
      have h2 : Except.ok (some s) = Except.ok sid := hsid
      injection h2 with h2
      simp only [idField, hlook]
      exact h2.symm
    | null =>
      have h2 : Except.ok (none : Option String) = Except.ok sid := hsid
      injection h2 with h2
      simp only [idField, hlook]
      exact h2.symm
    | jbool b => exact (Except.noConfusion hsid)
    | jnum n => exact (Except.noConfusion hsid)
    | jarr xs => exact (Except.noConfusion hsid)
    | jobj fs => exact (Except.noConfusion hsid)

/-- C8 (amended): server_id is null for every record produced by
extraction, and a fetched record's server_id equals the id field of the
remote object it was converted from: the string stored under id when one is
present, and null otherwise (in particular when the object has no id). -/
theorem claim8_amended :
    (∀ (now : Int) (convo : JValue) (ms : List Memory) (n : Nat),
      process_conversation now convo = Except.ok (ms, n) →
      ∀ m ∈ ms, m.server_id = none) ∧
    (∀ (now : Int) (d : JValue) (m : Memory),
      serverMemory now d = Except.ok m →
      m.server_id = idField d) := by
  constructor
  · intro now convo ms n h
    unfold process_conversation at h
    cases hm : pyGetD convo "mapping" (.jobj []) with
    | error e => rw [hm] at h; cases h
    | ok mapping =>
      rw [hm] at h
      have h2 : (match pyItems mapping with
                 | Except.error e => Except.error e
                 | Except.ok items =>
                   match processItems now items [] with
                   | Except.ok ms => Except.ok (ms, items.length)
                   | Except.error e => Except.error e) =
          Except.ok (α := List Memory × Nat) (ms, n) := h
      cases hi : pyItems mapping with
      | error e => rw [hi] at h2; cases h2
      | ok items =>
        rw [hi] at h2
        have h3 : (match processItems now items [] with
                   | Except.ok ms => Except.ok (ms, items.length)
                   | Except.error e => Except.error e) =
            Except.ok (α := List Memory × Nat) (ms, n) := h2
        cases hp : processItems now items [] with
        | ok ms' =>
          rw [hp] at h3
          have h' : Except.ok (ms', items.length) =
              Except.ok (α := List Memory × Nat) (ms, n) := h3
          injection h' with h'
          have hms : ms' = ms := congrArg Prod.fst h'
          intro m hmem
          rw [← hms] at hmem
          exact processItems_server_id now items [] ms'
            (by intro m hm; cases hm) hp m hmem
        | error e => rw [hp] at h3; cases h3
  · intro now d m h
    exact serverMemory_ok_server_id now d m h

/-- Server object carrying an id field. -/
def idServerObj : JValue :=
  .jobj [("content", .jstr "remote fact"), ("created_at", .jnum 5),
         ("updated_at", .jnum 6), ("id", .jstr "s42")]

/-- The record that the fetch conversion produces for `idServerObj`. -/
def idServerMemory : Memory :=
  { content := "remote fact", created_at := 5, updated_at := 6,
    server_id := some "s42" }

theorem claim8_witness :
    process_conversation 1000 goodOnlyConvo =
      Except.ok ([goodFactMemory], 1) ∧
    goodFactMemory.server_id = none ∧
    serverMemory 7 idServerObj = Except.ok idServerMemory ∧
    idServerMemory.server_id = idField idServerObj := by
  refine ⟨by rfl, ?_, by rfl, ?_⟩
  · exact claim8_amended.1 1000 goodOnlyConvo [goodFactMemory] 1 (by rfl)
      goodFactMemory (by simp)
  · exact claim8_amended.2 7 idServerObj idServerMemory (by rfl)

theorem claim6_witness :
    dictGet? (byContent [teaLocal, teaServer]) "likes tea" =
      [teaLocal, teaServer].reverse.find?
        (fun mem => mem.content == "likes tea") ∧
    dictGet? (byContent [teaLocal, teaServer]) "likes tea" =
      some teaServer :=
  ⟨(claim6_fold [teaLocal, teaServer]).2.2.1 "likes tea", by decide⟩

theorem claim7_witness :
    (reconcileRun [teaLocal] [teaServer]).server_memories_by_content =
      byContent [teaServer] ∧
    (reconcileRun [teaLocal] [teaServer]).local_memories_by_content =
      byContent [teaLocal] ∧
    reconcile [teaLocal] [teaServer] = reconcile [teaLocal] [teaServer] :=
  claim7_pure [teaLocal] [teaServer]

theorem claim10_witness :
    ((reconcile [teaLocal, teaServer] [teaServer]).1.map
      Memory.content).Nodup ∧
    ((reconcile [teaLocal, teaServer] [teaServer]).2.map
      Memory.content).Nodup :=
  claim10_no_duplicate_actions [teaLocal, teaServer] [teaServer]
